import Mathlib

/-!
Shallow embedding of `a9bsp.py` (class `AccessibleBSP`), a constraint-modeling
layer over a boolean satisfiability engine (pycosat).  Python dictionaries are
modelled as association lists (insertion order preserved by appending, which
also matches CPython's iteration order for the dense small-integer keys used
here), mutation is modelled by explicit state passing, and calls into the
external SAT engine are modelled by quantifying over the engine's reported
answer.  Exceptions are modelled by explicit error results.
-/

set_option maxHeartbeats 1000000

/-- First-match lookup in an association list; models `dict.__getitem__`
(`none` models a `KeyError`). -/
def alookup {α β : Type} [DecidableEq α] : List (α × β) → α → Option β
  | [], _ => none
  | (k, v) :: rest, a => if a = k then some v else alookup rest a

/-- Collects a list of optional values; `none` if any element is `none`.
Models a loop that raises as soon as one step raises. -/
def optList {α : Type} : List (Option α) → Option (List α)
  | [] => some []
  | none :: _ => none
  | some a :: rest => (optList rest).map (a :: ·)

/-- All sublists of length `k`, in the order produced by
`itertools.combinations` (lexicographic by position). -/
def combinations {α : Type} : Nat → List α → List (List α)
  | 0, _ => [[]]
  | _ + 1, [] => []
  | k + 1, x :: xs => (combinations k xs).map (x :: ·) ++ combinations (k + 1) xs

/-- Errors raised by the Python code: the two a9bsp exception classes, plus
`ValueError`, `KeyError` (dict lookup failure) and `NameError` (use of an
unbound local variable). -/
inductive PyError : Type
  | unsatisfiableConstraints
  | solutionNotFound
  | valueError
  | keyError
  | nameError
deriving DecidableEq, Repr

/-- Answer of the external engine's single-model query `pycosat.solve`:
a model (list of signed literals, one per variable), the string "UNSAT",
or the string "UNKNOWN". -/
inductive SolveResult : Type
  | model (m : List Int)
  | unsat
  | unknown
deriving DecidableEq, Repr

/-- State of an `AccessibleBSP` instance: the clause list, the
element-to-id and id-to-element dictionaries, and the variable counter. -/
structure AccessibleBSP (E : Type) where
  clauses : List (List Int)
  e2id : List (E × Nat)
  id2e : List (Nat × E)
  nvars : Nat
deriving DecidableEq

variable {E : Type} [DecidableEq E]

/-- Python `AccessibleBSP.__init__`: empty clause list, empty dictionaries,
zero variables (the Python attribute `variables` is `nvars` here). -/
def AccessibleBSP.new : AccessibleBSP E :=
  { clauses := [], e2id := [], id2e := [], nvars := 0 }

/-- Python `AccessibleBSP.to_id`: return the id previously assigned to `element`,
or assign (and record in both dictionaries) the next unused id
`variables + 1`.  The updated instance is returned alongside the id. -/
def AccessibleBSP.to_id (s : AccessibleBSP E) (element : E) : AccessibleBSP E × Nat :=
  match alookup s.e2id element with
  | some i => (s, i)
  | none =>
    let v := s.nvars + 1
    ({ clauses := s.clauses
       e2id := s.e2id ++ [(element, v)]
       id2e := s.id2e ++ [(v, element)]
       nvars := v }, v)

/-- Python `AccessibleBSP.from_id`: dictionary lookup `self.id2e[eid]`;
`none` models the `KeyError` on an id that was never assigned. -/
def AccessibleBSP.from_id (s : AccessibleBSP E) (eid : Nat) : Option E :=
  alookup s.id2e eid

/-- Threads `to_id` over a list of elements, as the Python list
comprehensions `[self.to_id(i) for i in elements]` do. -/
def to_ids (s : AccessibleBSP E) : List E → AccessibleBSP E × List Nat
  | [] => (s, [])
  | e :: rest =>
    let p := s.to_id e
    let q := to_ids p.1 rest
    (q.1, p.2 :: q.2)

/-- Remaps a list of ids through `from_id`, collecting the results into a
set; `none` models the `KeyError` raised when an id is unregistered. -/
def remap_ids (s : AccessibleBSP E) (ids : List Nat) : Option (Finset E) :=
  (optList (ids.map s.from_id)).map List.toFinset

/-- Python `AccessibleBSP.remap_solution`:
`set(self.from_id(i) for i in solution if i > 0)`. -/
def AccessibleBSP.remap_solution (s : AccessibleBSP E) (solution : List Int) : Option (Finset E) :=
  remap_ids s ((solution.filter (fun i => decide (0 < i))).map Int.toNat)

/-- Enumeration of a finite set of variable ids as a list, modelling the
iteration of a Python frozenset (whose order is irrelevant: the remap
builds a set and fails exactly when some member's lookup fails). -/
def finsetElems (A : Finset Nat) : List Nat :=
  (List.range (A.sup id + 1)).filter (fun i => decide (i ∈ A))

/-- Python `remap_solution` applied to a frozenset of (positive) variable ids, as
`partition_solutions` does; the `i > 0` filter is a no-op there. -/
def AccessibleBSP.remap_frozenset (s : AccessibleBSP E) (A : Finset Nat) : Option (Finset E) :=
  remap_ids s (finsetElems A)

/-- Python `AccessibleBSP.mutually_excludes`: appends the single clause
`[-self.to_id(e) for e in elements]`. -/
def AccessibleBSP.mutually_excludes (s : AccessibleBSP E) (elements : List E) : AccessibleBSP E :=
  let p := to_ids s elements
  { p.1 with clauses := p.1.clauses ++ [p.2.map (fun (i : Nat) => -(i : Int))] }

/-- Python `AccessibleBSP.includes`: appends the unit clause `[self.to_id(element)]`. -/
def AccessibleBSP.includes (s : AccessibleBSP E) (element : E) : AccessibleBSP E :=
  let p := s.to_id element
  { p.1 with clauses := p.1.clauses ++ [[(p.2 : Int)]] }

/-- Python `AccessibleBSP.excludes`: appends the unit clause `[-self.to_id(element)]`. -/
def AccessibleBSP.excludes (s : AccessibleBSP E) (element : E) : AccessibleBSP E :=
  let p := s.to_id element
  { p.1 with clauses := p.1.clauses ++ [[-(p.2 : Int)]] }

/-- Python `AccessibleBSP.includes_any`: resolves element ids, then appends one
positive clause per combination of length `len(elements) + 1 - n`.
(For `n > len(elements) + 1` the Python code raises `ValueError` inside
`itertools.combinations`; all uses here have `n ≤ len(elements)`.) -/
def AccessibleBSP.includes_any (s : AccessibleBSP E) (elements : List E) (n : Nat) : AccessibleBSP E :=
  let p := to_ids s elements
  let combination_length := p.2.length + 1 - n
  { p.1 with
    clauses := p.1.clauses
      ++ (combinations combination_length p.2).map (fun c => c.map (fun (i : Nat) => (i : Int))) }

/-- Python `AccessibleBSP.has_dependencies`: resolves `element`'s id first, then the
ids of `on`; `n` defaults to `len(on)`; appends the clause
`[-eid] + list(combination)` for every combination of length
`len(on) + 1 - n`. -/
def AccessibleBSP.has_dependencies (s : AccessibleBSP E) (element : E) (onElems : List E)
    (n : Option Nat) : AccessibleBSP E :=
  let p := s.to_id element
  let q := to_ids p.1 onElems
  let len_on := q.2.length
  let n' := n.getD len_on
  { q.1 with
    clauses := q.1.clauses
      ++ (combinations (len_on + 1 - n') q.2).map
          (fun c => (-(p.2 : Int)) :: c.map (fun (i : Nat) => (i : Int))) }

/-- One comment line of the DIMACS export: `"c %d = %r <%d>"` applied to an
id and its element (with caller-supplied `repr` and `hash` functions). -/
def commentLine (reprF : E → String) (hashF : E → Int) (p : Nat × E) : String :=
  "c " ++ toString p.1 ++ " = " ++ reprF p.2 ++ " <" ++ toString (hashF p.2) ++ ">"

/-- One clause line of the DIMACS export:
`" ".join(map(str, clause)) + " 0"`. -/
def clauseLine (c : List Int) : String :=
  String.intercalate " " (c.map toString) ++ " 0"

/-- The `lines` list built by `AccessibleBSP.dimacs_cnf`: one comment per
`id2e` entry (iterated in insertion order, i.e. ascending id, matching
CPython's iteration over a dict with dense small-int keys), then the
problem line `"p cnf %d %d" % (len(self.clauses), self.variables)`, then
one line per clause. -/
def AccessibleBSP.dimacs_lines (s : AccessibleBSP E) (reprF : E → String) (hashF : E → Int) :
    List String :=
  let lines : List String := []
  let lines := s.id2e.foldl (fun acc p => acc ++ [commentLine reprF hashF p]) lines
  let lines := lines ++ ["p cnf " ++ toString s.clauses.length ++ " " ++ toString s.nvars]
  s.clauses.foldl (fun acc c => acc ++ [clauseLine c]) lines

/-- Python `AccessibleBSP.dimacs_cnf`: `"\n".join(lines) + "\n"`. -/
def AccessibleBSP.dimacs_cnf (s : AccessibleBSP E) (reprF : E → String) (hashF : E → Int) :
    String :=
  String.intercalate "\n" (s.dimacs_lines reprF hashF) ++ "\n"

/-- Python `AccessibleBSP.solution`: dispatch on the engine's answer to
`pycosat.solve(self.clauses)`; "UNSAT" raises `UnsatisfiableConstraints`,
"UNKNOWN" raises `SolutionNotFound`, a model is remapped (a failed remap
models the `KeyError` Python would raise). -/
def AccessibleBSP.solution (s : AccessibleBSP E) (engine : SolveResult) :
    Except PyError (Finset E) :=
  match engine with
  | .unsat => .error .unsatisfiableConstraints
  | .unknown => .error .solutionNotFound
  | .model m =>
    match s.remap_solution m with
    | some g => .ok g
    | none => .error .keyError

/-- Python `AccessibleBSP.solutions`: the generator yields the remap of every model
enumerated by `pycosat.itersolve(self.clauses)` (here: the `models`
parameter); if the enumeration was empty it calls `self.solution` purely to
raise its descriptive error (and yields nothing if that call returns). -/
def AccessibleBSP.solutions (s : AccessibleBSP E) (models : List (List Int))
    (engine : SolveResult) : Except PyError (List (Finset E)) :=
  if models.isEmpty then
    match s.solution engine with
    | .error e => .error e
    | .ok _ => .ok []
  else
    match optList (models.map s.remap_solution) with
    | some l => .ok l
    | none => .error .keyError

/-- The scanning loop of `AccessibleBSP.minimal_solution`.  The Python
condition is `last is None or len(solution) < lastlen`; since the local
variable `lastlen` is never assigned anywhere in the method, evaluating the
second disjunct raises `NameError`, which happens on the second iteration
whenever the first solution was nonempty (an empty first solution breaks
out of the loop immediately). -/
def minimal_loop : Option (Finset E) → List (Finset E) → Except PyError (Option (Finset E))
  | last, [] => .ok last
  | last, sol :: rest =>
    match last with
    | none => if sol = ∅ then .ok (some sol) else minimal_loop (some sol) rest
    | some _ => .error .nameError

/-- Python `AccessibleBSP.minimal_solution`: iterates over `self.solutions`. -/
def AccessibleBSP.minimal_solution (s : AccessibleBSP E) (models : List (List Int))
    (engine : SolveResult) : Except PyError (Option (Finset E)) :=
  match s.solutions models engine with
  | .error e => .error e
  | .ok sols => minimal_loop none sols

/-- Python `frozenset(i for i in solution if i > 0)`. -/
def posFroz (m : List Int) : Finset Nat :=
  ((m.filter (fun i => decide (0 < i))).map Int.toNat).toFinset

/-- The candidate list built by the enumeration loop of
`partition_solutions`: positive-literal frozensets of all models, keeping
those within `max_group_size` when it is given. -/
def candidate_solutions (models : List (List Int)) (max_group_size : Option Nat) :
    List (Finset Nat) :=
  (models.map posFroz).filter (fun A =>
    match max_group_size with
    | none => true
    | some k => decide (A.card ≤ k))

/-- Union of a list of variable sets (`set().union(*solutions)`, and the
accumulated `pool` of a search path). -/
def poolOf (v : List (Finset Nat)) : Finset Nat :=
  v.foldr (· ∪ ·) ∅

/-- Sort key of `solutions.sort(key=lambda x: -len(x))`: descending size. -/
def bigger (A B : Finset Nat) : Prop := B.card ≤ A.card

instance : DecidableRel bigger := fun _ _ => Nat.decLe _ _

/-- Outcome of the inner depth-first search of `partition_solutions`. -/
inductive DfsOutcome : Type
  | success (path : List (Finset Nat))
  | exhausted
  | outOfFuel
  | internalError
deriving DecidableEq

/-- The `for solution in candidates` loop inside the search: skips a
candidate that is too large for the remaining capacity, already on the
path, or not disjoint from the accumulated pool; returns the extended path
as soon as it reaches the target pool size; otherwise appends the child
vertex to the shared edge list. -/
def expand (target : Nat) (pool : Finset Nat) (vertex : List (Finset Nat)) :
    List (Finset Nat) → List (List (Finset Nat)) →
      Sum (List (List (Finset Nat))) (List (Finset Nat))
  | [], edges => Sum.inl edges
  | c :: rest, edges =>
    if ((c.card : Int) > (target : Int) - (pool.card : Int)) ∨ c ∈ vertex ∨ (c ∩ pool).Nonempty then
      expand target pool vertex rest edges
    else if pool.card + c.card = target then
      Sum.inr (vertex ++ [c])
    else
      expand target pool vertex rest (edges ++ [vertex ++ [c]])

/-- The `while stack` loop of `partition_solutions`, for one starting
candidate.  A vertex already in `graph` is skipped.  A length-1 vertex
creates a fresh edge list, takes all candidates, and its pool is its single
member.  A longer vertex inherits the edge list and pool from its parent
`vertex[:-1]` via `graph`; since Python appends children to the inherited
list object itself, all vertices explored from one root share one edge
list, carried here as `edgesL` (a missing parent entry would be a Python
`KeyError`, modelled as `internalError`).  After expansion the vertex is
recorded in `graph` with its pool and the whole edge list is pushed
(`stack.extend(edges)`; the stack top is at the head here, so the extend
reverses).  `fuel` bounds the number of loop iterations. -/
def partition_dfs (sols : List (Finset Nat)) (target : Nat) :
    Nat → List (List (Finset Nat)) → List (List (Finset Nat) × Finset Nat) →
      List (List (Finset Nat)) → DfsOutcome
  | 0, _, _, _ => .outOfFuel
  | _ + 1, [], _, _ => .exhausted
  | fuel + 1, vertex :: stack, graph, edgesL =>
    match alookup graph vertex with
    | some _ => partition_dfs sols target fuel stack graph edgesL
    | none =>
      if vertex.length = 1 then
        match expand target (vertex.headD ∅) vertex sols [] with
        | Sum.inr path => .success path
        | Sum.inl edges1 =>
          partition_dfs sols target fuel (edges1.reverse ++ stack)
            (graph ++ [(vertex, vertex.headD ∅)]) edges1
      else
        match alookup graph vertex.dropLast, vertex.getLast? with
        | some ppool, some last =>
          match expand target (ppool ∪ last) vertex (edgesL.map (fun w => w.getLastD ∅)) edgesL with
          | Sum.inr path => .success path
          | Sum.inl edges1 =>
            partition_dfs sols target fuel (edges1.reverse ++ stack)
              (graph ++ [(vertex, ppool ∪ last)]) edges1
        | _, _ => .internalError

/-- The outer `for solution in solutions` loop: one depth-first search per
starting candidate; falls through to the final
`raise UnsatisfiableConstraints` (reported by the caller) when every root's
search is exhausted. -/
def partition_roots (sols : List (Finset Nat)) (target fuel : Nat) :
    List (Finset Nat) → DfsOutcome
  | [] => .exhausted
  | s0 :: rest =>
    match partition_dfs sols target fuel [[s0]] [] [] with
    | .success p => .success p
    | .exhausted => partition_roots sols target fuel rest
    | .outOfFuel => .outOfFuel
    | .internalError => .internalError

/-- Result of `partition_solutions`: a list of groups, a raised error, or
exhaustion of the step budget of the embedding. -/
inductive PartitionResult (E : Type) : Type
  | ok (groups : List (Finset E))
  | err (e : PyError)
  | outOfFuel
deriving DecidableEq

/-- Python `AccessibleBSP.partition_solutions`.  Enumerates all models (the
`models` parameter), filters by `max_group_size`; an empty filtered list
raises `ValueError` if models existed, otherwise defers to `self.solution`
for its descriptive error (if that call returns, control falls through to
the search loop over an empty candidate list, which exhausts immediately
and raises `UnsatisfiableConstraints`).  A single candidate is returned
as a singleton partition.  Otherwise the target pool size is computed, the
candidates are sorted by descending size, and the pruned depth-first
search runs; its success path is remapped, and exhaustion raises
`UnsatisfiableConstraints`. -/
def AccessibleBSP.partition_solutions (s : AccessibleBSP E) (models : List (List Int))
    (max_group_size : Option Nat) (engine : SolveResult) (fuel : Nat) : PartitionResult E :=
  let sols := candidate_solutions models max_group_size
  if sols.isEmpty then
    if !models.isEmpty then .err .valueError
    else
      match s.solution engine with
      | .error e => .err e
      | .ok _ => .err .unsatisfiableConstraints
  else if sols.length = 1 then
    match s.remap_frozenset (sols.headD ∅) with
    | some g => .ok [g]
    | none => .err .keyError
  else
    match partition_roots (List.insertionSort bigger sols) (poolOf sols).card fuel
        (List.insertionSort bigger sols) with
    | .success path =>
      match optList (path.map s.remap_frozenset) with
      | some groups => .ok groups
      | none => .err .keyError
    | .exhausted => .err .unsatisfiableConstraints
    | .outOfFuel => .outOfFuel
    | .internalError => .err .keyError

/-! ### CNF semantics

The spec's data model: a literal is a signed integer, positive asserting
the variable true; a clause is the OR of its literals; a model satisfies
the problem when every clause holds. -/

/-- A literal holds under an assignment. -/
def satLit (asgn : Nat → Bool) (l : Int) : Bool :=
  if 0 < l then asgn l.toNat else !asgn (-l).toNat

/-- A clause (OR of its literals) holds under an assignment. -/
def satClause (asgn : Nat → Bool) (c : List Int) : Bool :=
  c.any (satLit asgn)

/-- Every clause holds under the assignment. -/
def satisfies (asgn : Nat → Bool) (clauses : List (List Int)) : Bool :=
  clauses.all (satClause asgn)

/-- The assignment described by an engine model (a list of signed literals):
a variable is true when its positive literal is listed. -/
def modelAssign (m : List Int) (v : Nat) : Bool :=
  m.contains (Int.ofNat v)

/-! ### Registry well-formedness -/

/-- Invariant of the two dictionaries: they are mutually inverse, ids lie in
`1..variables`, and every id in that range is assigned.  Holds for a fresh
instance and is preserved by `to_id`. -/
structure Coherent (s : AccessibleBSP E) : Prop where
  left : ∀ e i, alookup s.e2id e = some i → alookup s.id2e i = some e
  right : ∀ i e, alookup s.id2e i = some e → alookup s.e2id e = some i
  dom : ∀ i e, alookup s.id2e i = some e → 1 ≤ i ∧ i ≤ s.nvars
  total : ∀ i, 1 ≤ i → i ≤ s.nvars → (alookup s.id2e i).isSome

/-! ### Association-list and registry lemmas -/

theorem alookup_append_some {α β : Type} [DecidableEq α] {l1 : List (α × β)}
    (l2 : List (α × β)) {a : α} {b : β} (h : alookup l1 a = some b) :
    alookup (l1 ++ l2) a = some b := by
  induction l1 with
  | nil => simp [alookup] at h
  | cons p rest ih =>
    obtain ⟨k, v⟩ := p
    simp only [alookup, List.cons_append] at h ⊢
    split at h
    · simpa [*] using h
    · simp only [*, if_false]
      exact ih h

theorem alookup_append_none {α β : Type} [DecidableEq α] {l1 : List (α × β)}
    (l2 : List (α × β)) {a : α} (h : alookup l1 a = none) :
    alookup (l1 ++ l2) a = alookup l2 a := by
  induction l1 with
  | nil => simp
  | cons p rest ih =>
    obtain ⟨k, v⟩ := p
    simp only [alookup, List.cons_append] at h ⊢
    split at h
    · exact absurd h (by simp)
    · simp only [*, if_false]
      exact ih h

theorem alookup_mem {α β : Type} [DecidableEq α] {l : List (α × β)} {a : α} {b : β}
    (h : alookup l a = some b) : (a, b) ∈ l := by
  induction l with
  | nil => simp [alookup] at h
  | cons p rest ih =>
    obtain ⟨k, v⟩ := p
    simp only [alookup] at h
    split at h
    · obtain ⟨rfl⟩ := Option.some_injective _ h
      simp [*]
    · exact List.mem_cons_of_mem _ (ih h)

theorem alookup_singleton {α β : Type} [DecidableEq α] (a : α) (b : β) :
    alookup [(a, b)] a = some b := by
  simp [alookup]

/-- Python `to_id` never touches the clause list. -/
theorem to_id_clauses (s : AccessibleBSP E) (e : E) : (s.to_id e).1.clauses = s.clauses := by
  unfold AccessibleBSP.to_id
  cases alookup s.e2id e <;> rfl

/-- A registered element is returned unchanged. -/
theorem to_id_registered {s : AccessibleBSP E} {e : E} {i : Nat}
    (h : alookup s.e2id e = some i) : s.to_id e = (s, i) := by
  unfold AccessibleBSP.to_id
  rw [h]

/-- The fresh-element case of `to_id`, as an equation. -/
theorem to_id_fresh {s : AccessibleBSP E} {e : E} (h : alookup s.e2id e = none) :
    s.to_id e =
      ({ clauses := s.clauses
         e2id := s.e2id ++ [(e, s.nvars + 1)]
         id2e := s.id2e ++ [(s.nvars + 1, e)]
         nvars := s.nvars + 1 }, s.nvars + 1) := by
  unfold AccessibleBSP.to_id
  rw [h]

/-- After `to_id`, the element is registered with the returned id. -/
theorem to_id_lookup (s : AccessibleBSP E) (e : E) :
    alookup (s.to_id e).1.e2id e = some (s.to_id e).2 := by
  cases h : alookup s.e2id e with
  | some i => rw [to_id_registered h]; exact h
  | none =>
    rw [to_id_fresh h]
    dsimp only
    rw [alookup_append_none _ h]
    simp [alookup]

/-- Existing `e2id` bindings survive `to_id`. -/
theorem to_id_preserves_e2id {s : AccessibleBSP E} {x : E} {i : Nat} (e : E)
    (h : alookup s.e2id x = some i) : alookup (s.to_id e).1.e2id x = some i := by
  unfold AccessibleBSP.to_id
  cases he : alookup s.e2id e with
  | some j => simpa using h
  | none => exact alookup_append_some _ h

/-- Existing `id2e` bindings survive `to_id`. -/
theorem to_id_preserves_id2e {s : AccessibleBSP E} {i : Nat} {x : E} (e : E)
    (h : alookup s.id2e i = some x) : alookup (s.to_id e).1.id2e i = some x := by
  unfold AccessibleBSP.to_id
  cases he : alookup s.e2id e with
  | some j => simpa using h
  | none => exact alookup_append_some _ h

/-- Calling `to_id` again on an element returns the same id and leaves the
state unchanged. -/
theorem to_id_idem (s : AccessibleBSP E) (e : E) :
    (s.to_id e).1.to_id e = ((s.to_id e).1, (s.to_id e).2) :=
  to_id_registered (to_id_lookup s e)

/-- A fresh instance is coherent. -/
theorem coherent_new : Coherent (AccessibleBSP.new : AccessibleBSP E) := by
  constructor <;> intro i <;> simp [AccessibleBSP.new, alookup] at * <;> omega

/-- Python `to_id` preserves coherence of the two dictionaries. -/
theorem coherent_to_id {s : AccessibleBSP E} (hco : Coherent s) (e : E) :
    Coherent (s.to_id e).1 := by
  cases he : alookup s.e2id e with
  | some j => rw [to_id_registered he]; exact hco
  | none =>
    rw [to_id_fresh he]
    have hid2e_top : alookup s.id2e (s.nvars + 1) = none := by
      cases h : alookup s.id2e (s.nvars + 1) with
      | none => rfl
      | some x =>
        have := (hco.dom _ _ h).2
        omega
    constructor
    · intro x i h
      dsimp only at h ⊢
      rcases hx : alookup s.e2id x with _ | j
      · rw [alookup_append_none _ hx] at h
        by_cases hxe : x = e
        · subst hxe
          simp only [alookup, if_pos rfl] at h
          injection h with h
          subst h
          rw [alookup_append_none _ hid2e_top]
          simp [alookup]
        · simp [alookup, hxe] at h
      · rw [alookup_append_some _ hx] at h
        injection h with h
        subst h
        exact alookup_append_some _ (hco.left _ _ hx)
    · intro i x h
      dsimp only at h ⊢
      rcases hx : alookup s.id2e i with _ | y
      · rw [alookup_append_none _ hx] at h
        by_cases hie : i = s.nvars + 1
        · subst hie
          simp only [alookup, if_pos rfl] at h
          injection h with h
          subst h
          rw [alookup_append_none _ he]
          simp [alookup]
        · simp [alookup, hie] at h
      · rw [alookup_append_some _ hx] at h
        injection h with h
        subst h
        exact alookup_append_some _ (hco.right _ _ hx)
    · intro i x h
      dsimp only at h ⊢
      rcases hx : alookup s.id2e i with _ | y
      · rw [alookup_append_none _ hx] at h
        by_cases hie : i = s.nvars + 1
        · subst hie
          omega
        · simp [alookup, hie] at h
      · rw [alookup_append_some _ hx] at h
        have := hco.dom _ _ hx
        omega
    · intro i h1 h2
      dsimp only at h2 ⊢
      by_cases hi : i ≤ s.nvars
      · have := hco.total i h1 hi
        rw [Option.isSome_iff_exists] at this
        obtain ⟨x, hx⟩ := this
        rw [alookup_append_some _ hx]
        rfl
      · have : i = s.nvars + 1 := by omega
        subst this
        rw [alookup_append_none _ hid2e_top]
        simp [alookup]

/-- Under coherence, `from_id` inverts `to_id`. -/
theorem to_id_from_id {s : AccessibleBSP E} (hco : Coherent s) (e : E) :
    (s.to_id e).1.from_id (s.to_id e).2 = some e :=
  (coherent_to_id hco e).left e _ (to_id_lookup s e)

/-- Ids produced by `to_id` are at least 1. -/
theorem to_id_pos {s : AccessibleBSP E} (hco : Coherent s) (e : E) :
    1 ≤ (s.to_id e).2 := by
  unfold AccessibleBSP.to_id
  cases he : alookup s.e2id e with
  | some j => simpa using (hco.dom _ _ (hco.left _ _ he)).1
  | none => simp

/-- Python `from_id` fails on any id outside `1..nvars`. -/
theorem from_id_out_of_range {s : AccessibleBSP E} (hco : Coherent s) {i : Nat}
    (h : i = 0 ∨ s.nvars < i) : s.from_id i = none := by
  cases hx : alookup s.id2e i with
  | none => exact hx
  | some x =>
    have := hco.dom _ _ hx
    omega

/-- Python `to_ids` never touches the clause list. -/
theorem to_ids_clauses (s : AccessibleBSP E) (l : List E) :
    (to_ids s l).1.clauses = s.clauses := by
  induction l generalizing s with
  | nil => rfl
  | cons e rest ih => simp [to_ids, ih, to_id_clauses]

/-- Existing `e2id` bindings survive `to_ids`. -/
theorem to_ids_preserves_e2id {s : AccessibleBSP E} {x : E} {i : Nat} (l : List E)
    (h : alookup s.e2id x = some i) : alookup (to_ids s l).1.e2id x = some i := by
  induction l generalizing s with
  | nil => exact h
  | cons e rest ih => exact ih (to_id_preserves_e2id e h)

/-- Python `to_ids` preserves coherence. -/
theorem coherent_to_ids {s : AccessibleBSP E} (hco : Coherent s) (l : List E) :
    Coherent (to_ids s l).1 := by
  induction l generalizing s with
  | nil => exact hco
  | cons e rest ih => exact ih (coherent_to_id hco e)

/-- The ids returned by `to_ids` are the final state's bindings of the
elements, in order. -/
theorem to_ids_map (s : AccessibleBSP E) (l : List E) :
    (to_ids s l).2 = l.map (fun e => (alookup (to_ids s l).1.e2id e).getD 0) := by
  induction l generalizing s with
  | nil => rfl
  | cons e rest ih =>
    simp only [to_ids, List.map_cons, List.cons.injEq]
    constructor
    · have h1 : alookup (s.to_id e).1.e2id e = some (s.to_id e).2 := to_id_lookup s e
      have h2 := to_ids_preserves_e2id rest h1
      simp [h2]
    · exact ih (s.to_id e).1

/-- Every listed element is registered in the final state of `to_ids`, with
the id at its position. -/
theorem to_ids_lookup (s : AccessibleBSP E) (l : List E) :
    ∀ e ∈ l, alookup (to_ids s l).1.e2id e = some ((alookup (to_ids s l).1.e2id e).getD 0) := by
  intro e he
  induction l generalizing s with
  | nil => simp at he
  | cons a rest ih =>
    rcases List.mem_cons.mp he with rfl | hmem
    · have h1 := to_ids_preserves_e2id rest (to_id_lookup s e)
      simp only [to_ids]
      simp [h1]
    · exact ih (s.to_id a).1 hmem

/-- Length of the id list. -/
theorem to_ids_length (s : AccessibleBSP E) (l : List E) :
    (to_ids s l).2.length = l.length := by
  rw [to_ids_map]
  exact List.length_map _ _

/-- Under coherence, all ids returned by `to_ids` are at least 1. -/
theorem to_ids_pos {s : AccessibleBSP E} (hco : Coherent s) (l : List E) :
    ∀ i ∈ (to_ids s l).2, 1 ≤ i := by
  induction l generalizing s with
  | nil => simp [to_ids]
  | cons e rest ih =>
    intro i hi
    simp only [to_ids, List.mem_cons] at hi
    rcases hi with rfl | hi
    · exact to_id_pos hco e
    · exact ih (coherent_to_id hco e) i hi

/-- Under coherence, distinct elements receive distinct ids. -/
theorem to_ids_nodup {s : AccessibleBSP E} (hco : Coherent s) {l : List E}
    (hnd : l.Nodup) : (to_ids s l).2.Nodup := by
  rw [to_ids_map]
  refine List.Nodup.map_on ?_ hnd
  intro x hx y hy hxy
  have hcof := coherent_to_ids hco l
  have hlx := to_ids_lookup s l x hx
  have hly := to_ids_lookup s l y hy
  have h1 := hcof.left _ _ hlx
  have h2 := hcof.left _ _ hly
  rw [hxy] at h1
  rw [h1] at h2
  exact Option.some_injective _ h2

/-! ### Combinations and the cardinality encoding -/

/-- Membership in `combinations k l`: exactly the length-`k` sublists. -/
theorem mem_combinations {α : Type} (k : Nat) (l : List α) (c : List α) :
    c ∈ combinations k l ↔ c.Sublist l ∧ c.length = k := by
  induction l generalizing k c with
  | nil =>
    cases k with
    | zero =>
      simp only [combinations, List.mem_singleton, List.sublist_nil]
      constructor
      · rintro rfl; simp
      · rintro ⟨rfl, _⟩; rfl
    | succ k =>
      simp only [combinations, List.not_mem_nil, false_iff, not_and, List.sublist_nil]
      rintro rfl
      simp
  | cons x xs ih =>
    cases k with
    | zero =>
      simp only [combinations, List.mem_singleton]
      constructor
      · rintro rfl; simp
      · rintro ⟨_, hlen⟩
        exact List.length_eq_zero.mp hlen
    | succ k =>
      simp only [combinations, List.mem_append, List.mem_map]
      constructor
      · rintro (⟨c', hc', rfl⟩ | hc)
        · have h := (ih k c').mp hc'
          exact ⟨List.Sublist.cons₂ x h.1, by simp [h.2]⟩
        · have h := (ih (k + 1) c).mp hc
          exact ⟨h.1.cons x, h.2⟩
      · rintro ⟨hsub, hlen⟩
        rcases List.sublist_cons_iff.mp hsub with h | ⟨r, rfl, hr⟩
        · exact Or.inr ((ih (k + 1) c).mpr ⟨h, hlen⟩)
        · exact Or.inl ⟨r, (ih k r).mpr ⟨hr, by simpa using hlen⟩, rfl⟩

/-- One clause per subset: the clause count is the binomial coefficient. -/
theorem combinations_length {α : Type} (k : Nat) (l : List α) :
    (combinations k l).length = Nat.choose l.length k := by
  induction l generalizing k with
  | nil => cases k <;> simp [combinations]
  | cons x xs ih =>
    cases k with
    | zero => simp [combinations]
    | succ k =>
      simp [combinations, ih, Nat.choose_succ_succ]

/-- The elements kept and dropped by a boolean filter partition the list. -/
theorem length_filter_add_not {α : Type} (p : α → Bool) (l : List α) :
    (l.filter p).length + (l.filter (fun a => !p a)).length = l.length := by
  induction l with
  | nil => rfl
  | cons a rest ih =>
    cases h : p a <;> simp [List.filter_cons, h] <;> omega

/-- The complementary-combinations cardinality encoding: all length-
`(m + 1 - n)` combination clauses hold exactly when at least `n` of the
(distinct) variables are true. -/
theorem atLeast_combinations (asgn : Nat → Bool) (ids : List Nat) (hnd : ids.Nodup)
    (n : Nat) (h1 : 1 ≤ n) (h2 : n ≤ ids.length) :
    (∀ c ∈ combinations (ids.length + 1 - n) ids, c.any asgn = true)
      ↔ n ≤ (ids.filter asgn).length := by
  constructor
  · intro hall
    by_contra hlt
    push_neg at hlt
    have hsum := length_filter_add_not asgn ids
    have hlen : ids.length + 1 - n ≤ (ids.filter (fun a => !asgn a)).length := by omega
    have hcsub : ((ids.filter (fun a => !asgn a)).take (ids.length + 1 - n)).Sublist ids :=
      (List.take_sublist _ _).trans (List.filter_sublist _)
    have hclen : ((ids.filter (fun a => !asgn a)).take (ids.length + 1 - n)).length
        = ids.length + 1 - n := by
      rw [List.length_take]
      omega
    have hmem := (mem_combinations (ids.length + 1 - n) ids _).mpr ⟨hcsub, hclen⟩
    have hany := hall _ hmem
    rw [List.any_eq_true] at hany
    obtain ⟨i, hi, hasgn⟩ := hany
    have hineg : i ∈ ids.filter (fun a => !asgn a) := List.take_subset _ _ hi
    have := (List.mem_filter.mp hineg).2
    simp [hasgn] at this
  · intro hn c hcmem
    rw [List.any_eq_true]
    by_contra hnone
    push_neg at hnone
    obtain ⟨hcsub, hclen⟩ := (mem_combinations _ _ _).mp hcmem
    have hcnd : c.Nodup := List.Nodup.sublist hcsub hnd
    have hsubs : c ⊆ ids.filter (fun a => !asgn a) := by
      intro i hi
      rw [List.mem_filter]
      refine ⟨hcsub.subset hi, ?_⟩
      have := hnone i hi
      simp [Bool.not_eq_true] at this
      simp [this]
    have hle := (hcnd.subperm hsubs).length_le
    have hsum := length_filter_add_not asgn ids
    omega

/-- A positive literal holds exactly when its variable is assigned true. -/
theorem satLit_pos (asgn : Nat → Bool) (i : Nat) (h : 1 ≤ i) :
    satLit asgn ((i : Int)) = asgn i := by
  unfold satLit
  rw [if_pos (by exact_mod_cast h)]
  simp

/-- A negated literal holds exactly when its variable is assigned false
(also at `i = 0`, where the literal degenerates to `0`). -/
theorem satLit_neg (asgn : Nat → Bool) (i : Nat) :
    satLit asgn (-(i : Int)) = !asgn i := by
  unfold satLit
  rcases Nat.eq_zero_or_pos i with rfl | hpos
  · simp
  · rw [if_neg (by omega)]
    congr 1
    congr 1
    omega

/-- A clause of positive literals is an OR of its variables. -/
theorem satClause_posmap (asgn : Nat → Bool) (c : List Nat) (hpos : ∀ i ∈ c, 1 ≤ i) :
    satClause asgn (c.map (fun (i : Nat) => (i : Int))) = c.any asgn := by
  induction c with
  | nil => rfl
  | cons i rest ih =>
    simp only [satClause, List.map_cons, List.any_cons] at *
    rw [show satLit asgn ((i : Int)) = asgn i from satLit_pos asgn i (hpos i (by simp))]
    rw [ih (fun j hj => hpos j (List.mem_cons_of_mem _ hj))]

/-- A clause of negated literals is an OR of the variables' negations. -/
theorem satClause_negmap (asgn : Nat → Bool) (c : List Nat) :
    satClause asgn (c.map (fun (i : Nat) => -(i : Int))) = c.any (fun i => !asgn i) := by
  induction c with
  | nil => rfl
  | cons i rest ih =>
    simp only [satClause, List.map_cons, List.any_cons] at *
    rw [satLit_neg, ih]

/-! ### Constraint-builder claims -/

/-- Content of claim C3: `mutually_excludes` appends exactly one clause,
that clause consists of the negation of every listed element's variable,
it is satisfied exactly when not all listed variables are true, and hence
no model of the grown problem has all of them true. -/
def MutuallyExcludesSpec (s : AccessibleBSP E) (elements : List E) : Prop :=
  (s.mutually_excludes elements).clauses
      = s.clauses ++ [(to_ids s elements).2.map (fun (i : Nat) => -(i : Int))]
  ∧ (to_ids s elements).2
      = elements.map (fun e => (alookup (s.mutually_excludes elements).e2id e).getD 0)
  ∧ (∀ asgn : Nat → Bool,
      (satClause asgn ((to_ids s elements).2.map (fun (i : Nat) => -(i : Int))) = true
        ↔ ¬ ∀ i ∈ (to_ids s elements).2, asgn i = true))
  ∧ (∀ asgn : Nat → Bool, satisfies asgn (s.mutually_excludes elements).clauses = true
      → ¬ ∀ i ∈ (to_ids s elements).2, asgn i = true)

/-- C3: for a non-empty collection, `mutually_excludes` appends exactly one
clause of negated variables, forbidding only the all-true configuration of
the listed elements (any assignment falsifying at least one of them
satisfies the clause). -/
theorem mutually_excludes_single_clause_semantics
    (s : AccessibleBSP E) (elements : List E) (hne : elements ≠ []) :
    MutuallyExcludesSpec s elements := by
  have hiff : ∀ asgn : Nat → Bool,
      (satClause asgn ((to_ids s elements).2.map (fun (i : Nat) => -(i : Int))) = true
        ↔ ¬ ∀ i ∈ (to_ids s elements).2, asgn i = true) := by
    intro asgn
    rw [satClause_negmap, List.any_eq_true]
    constructor
    · rintro ⟨i, hi, hneg⟩ hall
      have := hall i hi
      simp [this] at hneg
    · intro hnall
      by_contra hnone
      push_neg at hnone
      apply hnall
      intro i hi
      have := hnone i hi
      simpa using this
  refine ⟨?_, ?_, hiff, ?_⟩
  · simp only [AccessibleBSP.mutually_excludes]
    rw [to_ids_clauses]
  · simpa only [AccessibleBSP.mutually_excludes] using to_ids_map s elements
  · intro asgn hsat
    rw [satisfies, List.all_eq_true] at hsat
    have hmem : (to_ids s elements).2.map (fun (i : Nat) => -(i : Int))
        ∈ (s.mutually_excludes elements).clauses := by
      simp only [AccessibleBSP.mutually_excludes]
      simp
    exact (hiff asgn).mp (hsat _ hmem)

/-- Content of claim C4: the clause block appended by `includes_any`,
its count, its indexing by length-`(m + 1 - n)` sublists of the id list,
and the cardinality semantics "at least n of the m variables are true". -/
def IncludesAnySpec (s : AccessibleBSP E) (elements : List E) (n : Nat) : Prop :=
  (s.includes_any elements n).clauses
      = s.clauses ++ (combinations (elements.length + 1 - n) (to_ids s elements).2).map
          (fun c => c.map (fun (i : Nat) => (i : Int)))
  ∧ (combinations (elements.length + 1 - n) (to_ids s elements).2).length
      = Nat.choose elements.length (elements.length + 1 - n)
  ∧ (∀ c, c ∈ combinations (elements.length + 1 - n) (to_ids s elements).2
      ↔ c.Sublist (to_ids s elements).2 ∧ c.length = elements.length + 1 - n)
  ∧ (∀ asgn : Nat → Bool,
      ((∀ c ∈ (combinations (elements.length + 1 - n) (to_ids s elements).2).map
            (fun c => c.map (fun (i : Nat) => (i : Int))), satClause asgn c = true)
        ↔ n ≤ ((to_ids s elements).2.filter asgn).length))

/-- C4: for distinct elements and `1 ≤ n ≤ m`, `includes_any` appends one
positive clause per length-`(m + 1 - n)` subset of the variables (their
count is the binomial coefficient), and an assignment satisfies all of
them exactly when at least `n` of the `m` variables are true. -/
theorem includes_any_combinations_semantics
    (s : AccessibleBSP E) (elements : List E) (n : Nat)
    (hco : Coherent s) (hnd : elements.Nodup) (h1 : 1 ≤ n) (h2 : n ≤ elements.length) :
    IncludesAnySpec s elements n := by
  have hlen : (to_ids s elements).2.length = elements.length := to_ids_length s elements
  have hpos := to_ids_pos hco elements
  have hnodup := to_ids_nodup hco hnd
  refine ⟨?_, ?_, ?_, ?_⟩
  · simp only [AccessibleBSP.includes_any]
    rw [to_ids_clauses, hlen]
  · rw [combinations_length, hlen]
  · intro c
    rw [mem_combinations]
  · intro asgn
    rw [List.forall_mem_map]
    have hstep : (∀ c ∈ combinations (elements.length + 1 - n) (to_ids s elements).2,
        satClause asgn (c.map (fun (i : Nat) => (i : Int))) = true)
        ↔ (∀ c ∈ combinations ((to_ids s elements).2.length + 1 - n) (to_ids s elements).2,
            c.any asgn = true) := by
      rw [hlen]
      refine forall_congr' (fun c => ?_)
      refine imp_congr_right (fun hc => ?_)
      have hsub := ((mem_combinations _ _ c).mp hc).1
      rw [satClause_posmap asgn c (fun i hi => hpos i (hsub.subset hi))]
    rw [hstep, atLeast_combinations asgn _ hnodup n h1 (by omega)]

/-- The ids assigned to the dependency targets of `has_dependencies`
(`element`'s id is resolved first, then the ids of `on`). -/
def depIds (s : AccessibleBSP E) (element : E) (onElems : List E) : List Nat :=
  (to_ids (s.to_id element).1 onElems).2

/-- The clause block appended by `has_dependencies`: for each combination,
`(NOT element) OR (the combination, as positive literals)`. -/
def depClauses (s : AccessibleBSP E) (element : E) (onElems : List E) (n : Option Nat) :
    List (List Int) :=
  (combinations (onElems.length + 1 - n.getD onElems.length) (depIds s element onElems)).map
    (fun c => (-((s.to_id element).2 : Int)) :: c.map (fun (i : Nat) => (i : Int)))

/-- Content of claim C5: the appended clause block of `has_dependencies`,
its indexing by subsets, triviality for models without `element`, and the
cardinality semantics for models containing `element`. -/
def HasDependenciesSpec (s : AccessibleBSP E) (element : E) (onElems : List E)
    (n : Option Nat) : Prop :=
  (s.has_dependencies element onElems n).clauses = s.clauses ++ depClauses s element onElems n
  ∧ (∀ c, c ∈ combinations (onElems.length + 1 - n.getD onElems.length) (depIds s element onElems)
      ↔ c.Sublist (depIds s element onElems)
        ∧ c.length = onElems.length + 1 - n.getD onElems.length)
  ∧ (∀ asgn : Nat → Bool, asgn (s.to_id element).2 = false →
      ∀ c ∈ depClauses s element onElems n, satClause asgn c = true)
  ∧ (∀ asgn : Nat → Bool, asgn (s.to_id element).2 = true →
      ((∀ c ∈ depClauses s element onElems n, satClause asgn c = true)
        ↔ n.getD onElems.length ≤ ((depIds s element onElems).filter asgn).length))

/-- C5: `has_dependencies(element, on, n)` (with `n` defaulting to the size
of `on`) appends, per length-`(m + 1 - n)` subset of `on`'s variables, the
clause `(NOT element) OR subset`; a model without `element` satisfies all
of them, and a model with `element` satisfies all of them exactly when at
least `n` of `on`'s variables are true. -/
theorem has_dependencies_semantics
    (s : AccessibleBSP E) (element : E) (onElems : List E) (n : Option Nat)
    (hco : Coherent s) (hnd : onElems.Nodup)
    (h1 : 1 ≤ n.getD onElems.length) (h2 : n.getD onElems.length ≤ onElems.length) :
    HasDependenciesSpec s element onElems n := by
  have hco1 : Coherent (s.to_id element).1 := coherent_to_id hco element
  have hlen : (depIds s element onElems).length = onElems.length := to_ids_length _ onElems
  have hpos : ∀ i ∈ depIds s element onElems, 1 ≤ i := to_ids_pos hco1 onElems
  have hnodup : (depIds s element onElems).Nodup := to_ids_nodup hco1 hnd
  refine ⟨?_, ?_, ?_, ?_⟩
  · simp only [AccessibleBSP.has_dependencies, depClauses, depIds]
    rw [to_ids_clauses, to_id_clauses, to_ids_length]
  · intro c
    rw [mem_combinations]
  · intro asgn hfalse c hc
    simp only [depClauses, List.mem_map] at hc
    obtain ⟨c', _, rfl⟩ := hc
    simp only [satClause, List.any_cons]
    rw [show satLit asgn (-(((s.to_id element).2 : Nat) : Int)) = !asgn (s.to_id element).2 from
      satLit_neg asgn _]
    simp [hfalse]
  · intro asgn htrue
    have hstep : (∀ c ∈ depClauses s element onElems n, satClause asgn c = true)
        ↔ (∀ c ∈ combinations ((depIds s element onElems).length + 1 - n.getD onElems.length)
              (depIds s element onElems), c.any asgn = true) := by
      rw [hlen]
      simp only [depClauses, List.forall_mem_map]
      refine forall_congr' (fun c => ?_)
      refine imp_congr_right (fun hc => ?_)
      have hsub := ((mem_combinations _ _ c).mp hc).1
      simp only [satClause, List.any_cons]
      rw [show satLit asgn (-(((s.to_id element).2 : Nat) : Int)) = !asgn (s.to_id element).2 from
        satLit_neg asgn _]
      rw [htrue]
      simp only [Bool.not_true, Bool.false_or]
      rw [show ((c.map (fun (i : Nat) => (i : Int))).any (satLit asgn)) = c.any asgn from
        satClause_posmap asgn c (fun i hi => hpos i (hsub.subset hi))]
    rw [hstep, atLeast_combinations asgn _ hnodup _ h1 (by omega)]

/-! ### Remap lemmas -/

instance {ε α : Type} [DecidableEq ε] [DecidableEq α] : DecidableEq (Except ε α) := fun a b => by
  cases a <;> cases b
  case error.error e1 e2 => exact decidable_of_iff (e1 = e2) (by simp)
  case ok.ok x y => exact decidable_of_iff (x = y) (by simp)
  all_goals exact isFalse (fun h => Except.noConfusion h)

theorem optList_map_isSome {α β : Type} (f : α → Option β) (l : List α) :
    (optList (l.map f)).isSome ↔ ∀ a ∈ l, (f a).isSome := by
  induction l with
  | nil => simp [optList]
  | cons a rest ih =>
    cases h : f a with
    | none => simp [optList, h]
    | some b =>
      simp only [List.map_cons, optList, h]
      rw [show ((optList (rest.map f)).map (b :: ·)).isSome = (optList (rest.map f)).isSome from
        Option.isSome_map]
      simp [ih, h]

theorem optList_map_mem {α β : Type} (f : α → Option β) (l : List α) (out : List β)
    (h : optList (l.map f) = some out) (b : β) : b ∈ out ↔ ∃ a ∈ l, f a = some b := by
  induction l generalizing out with
  | nil =>
    simp only [List.map_nil, optList] at h
    injection h with h
    subst h
    simp
  | cons a rest ih =>
    cases hf : f a with
    | none => simp [optList, hf] at h
    | some b' =>
      simp only [List.map_cons, optList, hf] at h
      cases hrest : optList (rest.map f) with
      | none => rw [hrest] at h; simp at h
      | some out' =>
        rw [hrest] at h
        simp only [Option.map_some'] at h
        injection h with h
        subst h
        simp only [List.mem_cons, ih out' hrest]
        constructor
        · rintro (rfl | ⟨x, hx, hfx⟩)
          · exact ⟨a, Or.inl rfl, hf⟩
          · exact ⟨x, Or.inr hx, hfx⟩
        · rintro ⟨x, rfl | hx, hfx⟩
          · rw [hf] at hfx
            injection hfx with hfx
            exact Or.inl hfx.symm
          · exact Or.inr ⟨x, hx, hfx⟩

theorem optList_pairwise {α β : Type} {R : α → α → Prop} {S : β → β → Prop} {f : α → Option β}
    {l : List α} {out : List β} (h : optList (l.map f) = some out) (hp : l.Pairwise R)
    (himp : ∀ a b ga gb, R a b → f a = some ga → f b = some gb → S ga gb) :
    out.Pairwise S := by
  induction l generalizing out with
  | nil =>
    simp only [List.map_nil, optList] at h
    injection h with h
    subst h
    exact List.Pairwise.nil
  | cons a rest ih =>
    cases hf : f a with
    | none => simp [optList, hf] at h
    | some b' =>
      simp only [List.map_cons, optList, hf] at h
      cases hrest : optList (rest.map f) with
      | none => rw [hrest] at h; simp at h
      | some out' =>
        rw [hrest] at h
        simp only [Option.map_some'] at h
        injection h with h
        subst h
        rcases List.pairwise_cons.mp hp with ⟨hR, hp'⟩
        refine List.Pairwise.cons ?_ (ih hrest hp')
        intro g hg
        obtain ⟨x, hx, hfx⟩ := (optList_map_mem f rest out' hrest g).mp hg
        exact himp a x b' g (hR x hx) hf hfx

theorem remap_ids_mem {s : AccessibleBSP E} {ids : List Nat} {g : Finset E}
    (h : remap_ids s ids = some g) (e : E) : e ∈ g ↔ ∃ i ∈ ids, s.from_id i = some e := by
  unfold remap_ids at h
  cases hopt : optList (ids.map s.from_id) with
  | none => rw [hopt] at h; simp at h
  | some lst =>
    rw [hopt] at h
    simp only [Option.map_some'] at h
    injection h with h
    subst h
    rw [List.mem_toFinset]
    exact optList_map_mem _ _ _ hopt e

theorem remap_ids_isSome {s : AccessibleBSP E} {ids : List Nat}
    (h : ∀ i ∈ ids, (s.from_id i).isSome) : ∃ g, remap_ids s ids = some g := by
  have hs := (optList_map_isSome s.from_id ids).mpr h
  rw [Option.isSome_iff_exists] at hs
  obtain ⟨lst, hl⟩ := hs
  exact ⟨lst.toFinset, by unfold remap_ids; rw [hl]; rfl⟩

theorem remap_ids_congr {s : AccessibleBSP E} {ids1 ids2 : List Nat}
    (h : ∀ i, i ∈ ids1 ↔ i ∈ ids2) : remap_ids s ids1 = remap_ids s ids2 := by
  have hsome : (optList (ids1.map s.from_id)).isSome ↔ (optList (ids2.map s.from_id)).isSome := by
    rw [optList_map_isSome, optList_map_isSome]
    constructor
    · intro H i hi
      exact H i ((h i).mpr hi)
    · intro H i hi
      exact H i ((h i).mp hi)
  cases h1 : optList (ids1.map s.from_id) with
  | none =>
    have h2 : optList (ids2.map s.from_id) = none := by
      cases h2 : optList (ids2.map s.from_id) with
      | none => rfl
      | some l2 =>
        exfalso
        have := hsome.mpr (by rw [h2]; rfl)
        rw [h1] at this
        simp at this
    unfold remap_ids
    rw [h1, h2]
  | some l1 =>
    have h2 : ∃ l2, optList (ids2.map s.from_id) = some l2 := by
      have := hsome.mp (by rw [h1]; rfl)
      rwa [Option.isSome_iff_exists] at this
    obtain ⟨l2, h2⟩ := h2
    unfold remap_ids
    rw [h1, h2]
    simp only [Option.map_some']
    congr 1
    ext e
    rw [List.mem_toFinset, List.mem_toFinset, optList_map_mem _ _ _ h1 e,
      optList_map_mem _ _ _ h2 e]
    constructor
    · rintro ⟨i, hi, hf⟩
      exact ⟨i, (h i).mp hi, hf⟩
    · rintro ⟨i, hi, hf⟩
      exact ⟨i, (h i).mpr hi, hf⟩

theorem mem_finsetElems (A : Finset Nat) (i : Nat) : i ∈ finsetElems A ↔ i ∈ A := by
  unfold finsetElems
  rw [List.mem_filter]
  simp only [List.mem_range, decide_eq_true_eq]
  constructor
  · rintro ⟨_, h⟩
    exact h
  · intro h
    refine ⟨?_, h⟩
    have := Finset.le_sup (f := id) h
    simp only [id] at this
    omega

theorem remap_frozenset_posFroz (s : AccessibleBSP E) (m : List Int) :
    s.remap_frozenset (posFroz m) = s.remap_solution m := by
  unfold AccessibleBSP.remap_frozenset AccessibleBSP.remap_solution
  apply remap_ids_congr
  intro i
  rw [mem_finsetElems, posFroz, List.mem_toFinset]

theorem posFroz_mem (m : List Int) (j : Nat) :
    j ∈ posFroz m ↔ ∃ i ∈ m, 0 < i ∧ i.toNat = j := by
  unfold posFroz
  rw [List.mem_toFinset]
  simp [List.mem_map, List.mem_filter, decide_eq_true_eq]
  constructor
  · rintro ⟨i, ⟨hi, hpos⟩, rfl⟩
    exact ⟨i, hi, hpos, rfl⟩
  · rintro ⟨i, hi, hpos, rfl⟩
    exact ⟨i, ⟨hi, hpos⟩, rfl⟩

theorem remap_solution_mem {s : AccessibleBSP E} {m : List Int} {g : Finset E}
    (h : s.remap_solution m = some g) (e : E) :
    e ∈ g ↔ ∃ i ∈ m, 0 < i ∧ s.from_id i.toNat = some e := by
  unfold AccessibleBSP.remap_solution at h
  rw [remap_ids_mem h e]
  simp only [List.mem_map, List.mem_filter, decide_eq_true_eq]
  constructor
  · rintro ⟨j, ⟨i, ⟨hi, hpos⟩, rfl⟩, hf⟩
    exact ⟨i, hi, hpos, hf⟩
  · rintro ⟨i, hi, hpos, hf⟩
    exact ⟨i.toNat, ⟨i, ⟨hi, hpos⟩, rfl⟩, hf⟩

theorem remap_solution_isSome {s : AccessibleBSP E} {m : List Int}
    (h : ∀ i ∈ m, 0 < i → (s.from_id i.toNat).isSome) :
    ∃ g, s.remap_solution m = some g := by
  apply remap_ids_isSome
  intro j hj
  simp only [List.mem_map, List.mem_filter, decide_eq_true_eq] at hj
  obtain ⟨i, ⟨hi, hpos⟩, rfl⟩ := hj
  exact h i hi hpos

/-! ### Solution-query claims -/

/-- Content of claim C6: the three-way dispatch of the `solution` query,
the positive-literal remap of a returned model, the non-conflation of the
two error kinds, and the deferral of an empty enumeration to `solution`. -/
def SolutionDiscriminationSpec (s : AccessibleBSP E) : Prop :=
  s.solution SolveResult.unsat = Except.error PyError.unsatisfiableConstraints
  ∧ s.solution SolveResult.unknown = Except.error PyError.solutionNotFound
  ∧ (∀ (m : List Int) (g : Finset E), s.remap_solution m = some g →
      s.solution (SolveResult.model m) = Except.ok g
      ∧ (∀ e : E, e ∈ g ↔ ∃ i ∈ m, 0 < i ∧ s.from_id i.toNat = some e))
  ∧ PyError.unsatisfiableConstraints ≠ PyError.solutionNotFound
  ∧ (∀ (engine : SolveResult) (e' : PyError), s.solution engine = Except.error e' →
      s.solutions [] engine = Except.error e')

/-- C6: `solution` raises the Unsatisfiable error exactly on the engine's
UNSAT answer and the SolutionNotFound error exactly on UNKNOWN (never
conflated), otherwise returns the remap of the model's positive literals;
on an empty enumeration, `solutions` defers to `solution` and surfaces the
same distinguished error. -/
theorem solution_error_discrimination (s : AccessibleBSP E) :
    SolutionDiscriminationSpec s := by
  refine ⟨rfl, rfl, ?_, by simp, ?_⟩
  · intro m g h
    refine ⟨?_, remap_solution_mem h⟩
    simp only [AccessibleBSP.solution]
    rw [h]
  · intro engine e' h
    simp [AccessibleBSP.solutions, h]

/-! ### Registry claims -/

/-- Content of claim C7: first-seen ids are 1, 2, 3 in order and repeat
calls return the original id; `to_id` is idempotent on any state; under
coherence `from_id` inverts `to_id`; `from_id` fails on any id outside the
assigned range. -/
def RegistrySpec (x y z : E) : Prop :=
  ((AccessibleBSP.new.to_id x).2 = 1
    ∧ ((AccessibleBSP.new.to_id x).1.to_id y).2 = 2
    ∧ (((AccessibleBSP.new.to_id x).1.to_id y).1.to_id z).2 = 3
    ∧ ((((AccessibleBSP.new.to_id x).1.to_id y).1.to_id z).1.to_id x).2 = 1)
  ∧ (∀ (s : AccessibleBSP E) (e : E), (s.to_id e).1.to_id e = ((s.to_id e).1, (s.to_id e).2))
  ∧ (∀ (s : AccessibleBSP E) (e : E), Coherent s →
      (s.to_id e).1.from_id (s.to_id e).2 = some e)
  ∧ (∀ (s : AccessibleBSP E) (i : Nat), Coherent s → (i = 0 ∨ s.nvars < i) →
      s.from_id i = none)

/-- The id returned for a fresh element. -/
theorem to_id_snd_fresh {s : AccessibleBSP E} {e : E} (h : alookup s.e2id e = none) :
    (s.to_id e).2 = s.nvars + 1 := by
  rw [to_id_fresh h]

/-- The id returned for a registered element. -/
theorem to_id_snd_registered {s : AccessibleBSP E} {e : E} {i : Nat}
    (h : alookup s.e2id e = some i) : (s.to_id e).2 = i := by
  rw [to_id_registered h]

/-- The `e2id` dictionary after registering a fresh element. -/
theorem to_id_fst_e2id_fresh {s : AccessibleBSP E} {e : E} (h : alookup s.e2id e = none) :
    (s.to_id e).1.e2id = s.e2id ++ [(e, s.nvars + 1)] := by
  rw [to_id_fresh h]

/-- The variable counter after registering a fresh element. -/
theorem to_id_fst_nvars_fresh {s : AccessibleBSP E} {e : E} (h : alookup s.e2id e = none) :
    (s.to_id e).1.nvars = s.nvars + 1 := by
  rw [to_id_fresh h]

/-- C7: ids are assigned 1, 2, 3 in first-seen order, `to_id` is idempotent,
`from_id` inverts `to_id` on every registered element, and `from_id` on a
never-assigned id fails with a lookup error. -/
theorem to_id_from_id_registry (x y z : E) (hxy : x ≠ y) (hxz : x ≠ z) (hyz : y ≠ z) :
    RegistrySpec x y z := by
  have hx0 : alookup (AccessibleBSP.new : AccessibleBSP E).e2id x = none := rfl
  have hy0 : alookup ((AccessibleBSP.new : AccessibleBSP E).to_id x).1.e2id y = none := by
    rw [to_id_fst_e2id_fresh hx0]
    simp [AccessibleBSP.new, alookup, Ne.symm hxy]
  have hz0 : alookup (((AccessibleBSP.new : AccessibleBSP E).to_id x).1.to_id y).1.e2id z
      = none := by
    rw [to_id_fst_e2id_fresh hy0, to_id_fst_e2id_fresh hx0]
    simp [AccessibleBSP.new, alookup, Ne.symm hxz, Ne.symm hyz]
  have hx3 : alookup ((((AccessibleBSP.new : AccessibleBSP E).to_id x).1.to_id y).1.to_id
      z).1.e2id x = some 1 := by
    rw [to_id_fst_e2id_fresh hz0, to_id_fst_e2id_fresh hy0, to_id_fst_e2id_fresh hx0]
    simp [AccessibleBSP.new, alookup]
  refine ⟨⟨?_, ?_, ?_, ?_⟩, ?_, ?_, ?_⟩
  · rw [to_id_snd_fresh hx0]
    rfl
  · rw [to_id_snd_fresh hy0, to_id_fst_nvars_fresh hx0]
    rfl
  · rw [to_id_snd_fresh hz0, to_id_fst_nvars_fresh hy0, to_id_fst_nvars_fresh hx0]
    rfl
  · rw [to_id_snd_registered hx3]
  · intro s e
    exact to_id_idem s e
  · intro s e hco
    exact to_id_from_id hco e
  · intro s i hco hout
    exact from_id_out_of_range hco hout

/-! ### DIMACS export claim -/

/-- Loops that append one derived line per item build `init ++ map`. -/
theorem foldl_append_map {α β : Type} (f : α → β) (l : List α) (init : List β) :
    l.foldl (fun acc x => acc ++ [f x]) init = init ++ l.map f := by
  induction l generalizing init with
  | nil => simp
  | cons a rest ih =>
    rw [List.foldl_cons, ih, List.map_cons]
    simp

/-- C9: the DIMACS export is one comment line per registered element, then
the problem line carrying the clause count before the variable count, then
one terminated line per clause; the full text joins these lines. -/
theorem dimacs_cnf_format (s : AccessibleBSP E) (reprF : E → String) (hashF : E → Int) :
    s.dimacs_lines reprF hashF
      = s.id2e.map (commentLine reprF hashF)
        ++ ["p cnf " ++ toString s.clauses.length ++ " " ++ toString s.nvars]
        ++ s.clauses.map clauseLine
    ∧ s.dimacs_cnf reprF hashF
      = String.intercalate "\n" (s.dimacs_lines reprF hashF) ++ "\n" := by
  constructor
  · unfold AccessibleBSP.dimacs_lines
    rw [foldl_append_map, foldl_append_map]
    simp
  · rfl

/-! ### Empty-collection claim -/

/-- Content of claim C10: `mutually_excludes` on an empty collection and
`includes_any` on an empty collection with `n = 1` each append the empty
clause; an empty clause is satisfied by no assignment; and `solution` then
raises the Unsatisfiable error for any sound, decided engine answer. -/
def EmptyClauseSpec (s : AccessibleBSP E) : Prop :=
  (s.mutually_excludes []).clauses = s.clauses ++ [[]]
  ∧ (s.includes_any [] 1).clauses = s.clauses ++ [[]]
  ∧ (∀ (clauses : List (List Int)) (asgn : Nat → Bool), [] ∈ clauses →
      satisfies asgn clauses = false)
  ∧ (∀ (s2 : AccessibleBSP E) (engine : SolveResult), [] ∈ s2.clauses →
      (∀ m, engine = SolveResult.model m → satisfies (modelAssign m) s2.clauses = true) →
      engine ≠ SolveResult.unknown →
      s2.solution engine = Except.error PyError.unsatisfiableConstraints)

/-- C10: an empty element collection makes `mutually_excludes` (and
`includes_any` with `n = 1`) append the empty clause, after which no
assignment satisfies the problem and the solution query of a sound,
decided engine raises the Unsatisfiable error. -/
theorem empty_elements_unsatisfiable (s : AccessibleBSP E) : EmptyClauseSpec s := by
  have hfalse : ∀ (clauses : List (List Int)) (asgn : Nat → Bool), [] ∈ clauses →
      satisfies asgn clauses = false := by
    intro clauses asgn hmem
    rw [satisfies, List.all_eq_false]
    exact ⟨[], hmem, by simp [satClause]⟩
  refine ⟨rfl, rfl, hfalse, ?_⟩
  intro s2 engine hmem hsound hne
  cases engine with
  | unsat => rfl
  | unknown => exact absurd rfl hne
  | model m =>
    have h := hsound m rfl
    rw [hfalse s2.clauses (modelAssign m) hmem] at h
    exact absurd h (by simp)

/-! ### The minimal-solution defect (claim C2) -/

/-- C2 (code defect): on the enumeration `[[1], [-1]]` over one registered
element (solutions `{7}` then `∅`), `minimal_solution` raises `NameError`
because its comparison reads the never-assigned local `lastlen`, instead of
returning the minimal solution `∅` that the second model remaps to. -/
theorem minimal_solution_crashes_on_second_solution :
    ((AccessibleBSP.new : AccessibleBSP Nat).to_id 7).1.minimal_solution [[1], [-1]]
        SolveResult.unsat = Except.error PyError.nameError
    ∧ ((AccessibleBSP.new : AccessibleBSP Nat).to_id 7).1.remap_solution [-1]
        = some (∅ : Finset Nat) := by
  constructor
  · decide
  · decide

/-! ### Soundness of the partition search -/

theorem poolOf_append (v : List (Finset Nat)) (A : Finset Nat) :
    poolOf (v ++ [A]) = poolOf v ∪ A := by
  induction v with
  | nil => simp [poolOf]
  | cons B rest ih =>
    simp only [poolOf, List.cons_append, List.foldr_cons] at ih ⊢
    rw [ih, Finset.union_assoc]

theorem mem_poolOf {x : Nat} {v : List (Finset Nat)} :
    x ∈ poolOf v ↔ ∃ A ∈ v, x ∈ A := by
  induction v with
  | nil => simp [poolOf]
  | cons B rest ih =>
    simp only [poolOf, List.foldr_cons, Finset.mem_union] at ih ⊢
    rw [ih]
    simp

theorem disjoint_poolOf {c : Finset Nat} {v : List (Finset Nat)} :
    Disjoint c (poolOf v) ↔ ∀ A ∈ v, Disjoint c A := by
  induction v with
  | nil => simp [poolOf]
  | cons B rest ih =>
    simp only [poolOf, List.foldr_cons, Finset.disjoint_union_right] at ih ⊢
    rw [ih]
    simp

/-- Invariant of a search path: its members are candidate solutions and are
pairwise disjoint. -/
def GoodPath (sols : List (Finset Nat)) (v : List (Finset Nat)) : Prop :=
  (∀ A ∈ v, A ∈ sols) ∧ v.Pairwise (fun A B => Disjoint A B)

theorem poolOf_card_append {v : List (Finset Nat)} {c : Finset Nat}
    (hd : Disjoint c (poolOf v)) :
    (poolOf (v ++ [c])).card = (poolOf v).card + c.card := by
  rw [poolOf_append, Finset.card_union_of_disjoint hd.symm]

theorem goodPath_append {sols v : List (Finset Nat)} {c : Finset Nat}
    (hg : GoodPath sols v) (hc : c ∈ sols) (hd : Disjoint c (poolOf v)) :
    GoodPath sols (v ++ [c]) := by
  obtain ⟨hmem, hpw⟩ := hg
  constructor
  · intro A hA
    rcases List.mem_append.mp hA with h | h
    · exact hmem A h
    · rw [List.mem_singleton] at h
      subst h
      exact hc
  · rw [List.pairwise_append]
    refine ⟨hpw, List.pairwise_singleton _ _, ?_⟩
    intro a ha b hb
    rw [List.mem_singleton] at hb
    subst hb
    exact ((disjoint_poolOf.mp hd) a ha).symm

/-- Soundness of the candidate loop: a successful return is a good path
whose pool has exactly the target size, and every appended edge is a good
nonempty path. -/
theorem expand_sound (sols : List (Finset Nat)) (target : Nat) :
    ∀ (cands vertex : List (Finset Nat)) (pool : Finset Nat)
      (acc : List (List (Finset Nat))),
      GoodPath sols vertex → pool = poolOf vertex → (∀ c ∈ cands, c ∈ sols) →
      (∀ w ∈ acc, GoodPath sols w ∧ w ≠ []) →
      (∀ path, expand target pool vertex cands acc = Sum.inr path →
          GoodPath sols path ∧ (poolOf path).card = target)
      ∧ (∀ L1, expand target pool vertex cands acc = Sum.inl L1 →
          ∀ w ∈ L1, GoodPath sols w ∧ w ≠ []) := by
  intro cands
  induction cands with
  | nil =>
    intro vertex pool acc hg hpool hcs hacc
    constructor
    · intro path h
      simp [expand] at h
    · intro L1 h
      simp only [expand] at h
      injection h with h
      subst h
      exact hacc
  | cons c cs ih =>
    intro vertex pool acc hg hpool hcs hacc
    by_cases hskip : ((c.card : Int) > (target : Int) - (pool.card : Int))
        ∨ c ∈ vertex ∨ (c ∩ pool).Nonempty
    · have heq : expand target pool vertex (c :: cs) acc
          = expand target pool vertex cs acc := by
        simp only [expand]
        rw [if_pos hskip]
      rw [heq]
      exact ih vertex pool acc hg hpool (fun c' hc' => hcs c' (List.mem_cons_of_mem _ hc')) hacc
    · have hdisj : Disjoint c pool := by
        rcases not_or.mp hskip with ⟨_, h2⟩
        rcases not_or.mp h2 with ⟨_, h3⟩
        rw [Finset.disjoint_iff_inter_eq_empty]
        exact Finset.not_nonempty_iff_eq_empty.mp h3
      have hcsols : c ∈ sols := hcs c (List.mem_cons_self c cs)
      have hgood : GoodPath sols (vertex ++ [c]) :=
        goodPath_append hg hcsols (hpool ▸ hdisj)
      by_cases hhit : pool.card + c.card = target
      · have heq : expand target pool vertex (c :: cs) acc = Sum.inr (vertex ++ [c]) := by
          simp only [expand]
          rw [if_neg hskip, if_pos hhit]
        rw [heq]
        constructor
        · intro path h
          injection h with h
          subst h
          refine ⟨hgood, ?_⟩
          rw [hpool] at hdisj hhit
          rw [poolOf_card_append hdisj]
          exact hhit
        · intro L1 h
          exact absurd h (by simp)
      · have heq : expand target pool vertex (c :: cs) acc
            = expand target pool vertex cs (acc ++ [vertex ++ [c]]) := by
          simp only [expand]
          rw [if_neg hskip, if_neg hhit]
        rw [heq]
        refine ih vertex pool (acc ++ [vertex ++ [c]]) hg hpool
          (fun c' hc' => hcs c' (List.mem_cons_of_mem _ hc')) ?_
        intro w hw
        rcases List.mem_append.mp hw with h | h
        · exact hacc w h
        · rw [List.mem_singleton] at h
          subst h
          exact ⟨hgood, by simp⟩

/-- Soundness of the while loop: under the invariants on `graph` (each
visited vertex is good and is recorded with the union of its members as
pool), on the `stack` and on the shared edge list, a successful search
returns a good path whose pool has exactly the target size. -/
theorem partition_dfs_sound (sols : List (Finset Nat)) (target : Nat) :
    ∀ (fuel : Nat) (stack : List (List (Finset Nat)))
      (graph : List (List (Finset Nat) × Finset Nat)) (edgesL : List (List (Finset Nat))),
      (∀ vp ∈ graph, GoodPath sols vp.1 ∧ vp.2 = poolOf vp.1) →
      (∀ v ∈ stack, GoodPath sols v ∧ v ≠ []) →
      (∀ w ∈ edgesL, GoodPath sols w ∧ w ≠ []) →
      ∀ path, partition_dfs sols target fuel stack graph edgesL = DfsOutcome.success path →
        GoodPath sols path ∧ (poolOf path).card = target := by
  intro fuel
  induction fuel with
  | zero =>
    intro stack graph edgesL _ _ _ path h
    simp [partition_dfs] at h
  | succ fuel ih =>
    intro stack graph edgesL hgraph hstack hedges path h
    cases stack with
    | nil => simp [partition_dfs] at h
    | cons vertex stack' =>
      have hvert := hstack vertex (List.mem_cons_self _ _)
      obtain ⟨hvgood, hvne⟩ := hvert
      have hstack' : ∀ v ∈ stack', GoodPath sols v ∧ v ≠ [] :=
        fun v hv => hstack v (List.mem_cons_of_mem _ hv)
      simp only [partition_dfs] at h
      cases hlook : alookup graph vertex with
      | some p =>
        rw [hlook] at h
        dsimp only at h
        exact ih stack' graph edgesL hgraph hstack' hedges path h
      | none =>
        rw [hlook] at h
        dsimp only at h
        by_cases hlen : vertex.length = 1
        · rw [if_pos hlen] at h
          obtain ⟨a, rfl⟩ := List.length_eq_one.mp hlen
          have hpool : ([a].headD ∅) = poolOf [a] := by
            simp [poolOf]
          have hexp := expand_sound sols target sols [a] ([a].headD ∅) []
            hvgood hpool (fun c hc => hc) (by simp)
          cases hexpand : expand target ([a].headD ∅) [a] sols [] with
          | inr path' =>
            rw [hexpand] at h
            dsimp only at h
            injection h with h
            subst h
            exact hexp.1 _ hexpand
          | inl edges1 =>
            rw [hexpand] at h
            dsimp only at h
            have hedges1 := hexp.2 edges1 hexpand
            refine ih (edges1.reverse ++ stack') (graph ++ [([a], [a].headD ∅)]) edges1
              ?_ ?_ hedges1 path h
            · intro vp hvp
              rcases List.mem_append.mp hvp with h' | h'
              · exact hgraph vp h'
              · rw [List.mem_singleton] at h'
                subst h'
                exact ⟨hvgood, hpool⟩
            · intro v hv
              rcases List.mem_append.mp hv with h' | h'
              · exact hedges1 v (List.mem_reverse.mp h')
              · exact hstack' v h'
        · rw [if_neg hlen] at h
          cases hpar : alookup graph vertex.dropLast with
          | none =>
            rw [hpar] at h
            cases hlast : vertex.getLast? with
            | none =>
              rw [hlast] at h
              simp at h
            | some last =>
              rw [hlast] at h
              simp at h
          | some ppool =>
            rw [hpar] at h
            cases hlast : vertex.getLast? with
            | none =>
              rw [hlast] at h
              simp at h
            | some last =>
              rw [hlast] at h
              dsimp only at h
              have hentry := hgraph _ (alookup_mem hpar)
              have hgparent : GoodPath sols vertex.dropLast := hentry.1
              have hppool : ppool = poolOf vertex.dropLast := hentry.2
              have hlastval : last = vertex.getLast hvne := by
                have hq := List.getLast?_eq_getLast vertex hvne
                rw [hlast] at hq
                exact Option.some_injective _ hq
              have hpool : ppool ∪ last = poolOf vertex := by
                rw [hppool, hlastval]
                have hsplit := List.dropLast_append_getLast hvne
                conv_rhs => rw [← hsplit]
                rw [poolOf_append]
              have hcand : ∀ c ∈ edgesL.map (fun w => w.getLastD ∅), c ∈ sols := by
                intro c hc
                rw [List.mem_map] at hc
                obtain ⟨w, hw, rfl⟩ := hc
                obtain ⟨⟨hwmem, _⟩, hwne⟩ := hedges w hw
                rw [List.getLastD_eq_getLast?, List.getLast?_eq_getLast w hwne]
                exact hwmem _ (List.getLast_mem hwne)
              have hexp := expand_sound sols target (edgesL.map (fun w => w.getLastD ∅))
                vertex (ppool ∪ last) edgesL hvgood hpool hcand hedges
              cases hexpand : expand target (ppool ∪ last) vertex
                  (edgesL.map (fun w => w.getLastD ∅)) edgesL with
              | inr path' =>
                rw [hexpand] at h
                dsimp only at h
                injection h with h
                subst h
                exact hexp.1 _ hexpand
              | inl edges1 =>
                rw [hexpand] at h
                dsimp only at h
                have hedges1 := hexp.2 edges1 hexpand
                refine ih (edges1.reverse ++ stack') (graph ++ [(vertex, ppool ∪ last)]) edges1
                  ?_ ?_ hedges1 path h
                · intro vp hvp
                  rcases List.mem_append.mp hvp with h' | h'
                  · exact hgraph vp h'
                  · rw [List.mem_singleton] at h'
                    subst h'
                    exact ⟨hvgood, hpool⟩
                · intro v hv
                  rcases List.mem_append.mp hv with h' | h'
                  · exact hedges1 v (List.mem_reverse.mp h')
                  · exact hstack' v h'

/-- Soundness of the per-root loop. -/
theorem partition_roots_sound (sols : List (Finset Nat)) (target fuel : Nat) :
    ∀ (roots : List (Finset Nat)), (∀ r ∈ roots, r ∈ sols) →
      ∀ path, partition_roots sols target fuel roots = DfsOutcome.success path →
        GoodPath sols path ∧ (poolOf path).card = target := by
  intro roots
  induction roots with
  | nil =>
    intro _ path h
    simp [partition_roots] at h
  | cons s0 rest ih =>
    intro hroots path h
    simp only [partition_roots] at h
    cases hdfs : partition_dfs sols target fuel [[s0]] [] [] with
    | success p =>
      rw [hdfs] at h
      injection h with h
      subst h
      refine partition_dfs_sound sols target fuel [[s0]] [] [] (by simp) ?_ (by simp) _ hdfs
      intro v hv
      rw [List.mem_singleton] at hv
      subst hv
      refine ⟨⟨?_, List.pairwise_singleton _ _⟩, by simp⟩
      intro A hA
      rw [List.mem_singleton] at hA
      subst hA
      exact hroots _ (List.mem_cons_self _ _)
    | exhausted =>
      rw [hdfs] at h
      exact ih (fun r hr => hroots r (List.mem_cons_of_mem _ hr)) path h
    | outOfFuel =>
      rw [hdfs] at h
      simp at h
    | internalError =>
      rw [hdfs] at h
      simp at h

theorem remap_frozenset_mem {s : AccessibleBSP E} {A : Finset Nat} {g : Finset E}
    (h : s.remap_frozenset A = some g) (e : E) :
    e ∈ g ↔ ∃ i ∈ A, s.from_id i = some e := by
  unfold AccessibleBSP.remap_frozenset at h
  rw [remap_ids_mem h e]
  constructor
  · rintro ⟨i, hi, hf⟩
    exact ⟨i, (mem_finsetElems _ _).mp hi, hf⟩
  · rintro ⟨i, hi, hf⟩
    exact ⟨i, (mem_finsetElems _ _).mpr hi, hf⟩

/-- Content of claim C1: the groups returned by `partition_solutions` (no
`max_group_size`) are pairwise disjoint, each is the remap of one of the
enumerated models, and their union is exactly the union of the remaps of
all enumerated models (the target pool). -/
def PartitionCoverSpec (s : AccessibleBSP E) (models : List (List Int))
    (groups : List (Finset E)) : Prop :=
  groups.Pairwise (fun g1 g2 => Disjoint g1 g2)
  ∧ (∀ g ∈ groups, ∃ m ∈ models, s.remap_solution m = some g)
  ∧ (∀ e : E, (∃ g ∈ groups, e ∈ g)
      ↔ ∃ m ∈ models, ∃ g, s.remap_solution m = some g ∧ e ∈ g)

/-- C1: whenever `partition_solutions` (called with no `max_group_size`, on
a nonempty enumeration whose models mention only registered variables)
returns a list of groups, those groups are pairwise disjoint, each is an
enumerated solution remapped to domain elements, and their union equals
the union of every enumerated solution. -/
theorem partition_solutions_disjoint_cover
    (s : AccessibleBSP E) (models : List (List Int)) (engine : SolveResult) (fuel : Nat)
    (groups : List (Finset E)) (hco : Coherent s)
    (hmodels : ∀ m ∈ models, ∀ i ∈ m, 0 < i → (s.from_id i.toNat).isSome)
    (hne : models ≠ [])
    (hres : s.partition_solutions models none engine fuel = PartitionResult.ok groups) :
    PartitionCoverSpec s models groups := by
  have hinj : ∀ i j e, s.from_id i = some e → s.from_id j = some e → i = j := by
    intro i j e hi hj
    have h1 := hco.right _ _ hi
    have h2 := hco.right _ _ hj
    rw [h1] at h2
    exact Option.some_injective _ h2
  have hsols : candidate_solutions models none = models.map posFroz := by
    unfold candidate_solutions
    simp
  simp only [AccessibleBSP.partition_solutions] at hres
  rw [hsols] at hres
  have hSne : models.map posFroz ≠ [] := by
    simpa using hne
  rw [if_neg (by simp [List.isEmpty_iff, hSne])] at hres
  by_cases hlen1 : (models.map posFroz).length = 1
  · rw [if_pos hlen1] at hres
    have hmlen : models.length = 1 := by
      rw [List.length_map] at hlen1
      exact hlen1
    obtain ⟨m0, rfl⟩ := List.length_eq_one.mp hmlen
    simp only [List.map_cons, List.map_nil, List.headD_cons] at hres
    cases hre : s.remap_frozenset (posFroz m0) with
    | none =>
      rw [hre] at hres
      exact absurd hres (by simp)
    | some g =>
      rw [hre] at hres
      have hgroups : groups = [g] := by
        injection hres with h
        exact h.symm
      subst hgroups
      have hg : s.remap_solution m0 = some g := by
        rw [← remap_frozenset_posFroz, hre]
      refine ⟨List.pairwise_singleton _ _, ?_, ?_⟩
      · intro g' hg'
        rw [List.mem_singleton] at hg'
        subst hg'
        exact ⟨m0, by simp, hg⟩
      · intro e
        constructor
        · rintro ⟨g', hg', he⟩
          rw [List.mem_singleton] at hg'
          subst hg'
          exact ⟨m0, by simp, _, hg, he⟩
        · rintro ⟨m', hm', g', hg', he⟩
          rw [List.mem_singleton] at hm'
          subst hm'
          rw [hg] at hg'
          injection hg' with hg'
          subst hg'
          exact ⟨_, by simp, he⟩
  · rw [if_neg hlen1] at hres
    cases hsearch : partition_roots (List.insertionSort bigger (models.map posFroz))
        (poolOf (models.map posFroz)).card fuel
        (List.insertionSort bigger (models.map posFroz)) with
    | exhausted =>
      rw [hsearch] at hres
      exact absurd hres (by simp)
    | outOfFuel =>
      rw [hsearch] at hres
      exact absurd hres (by simp)
    | internalError =>
      rw [hsearch] at hres
      exact absurd hres (by simp)
    | success path =>
      rw [hsearch] at hres
      dsimp only at hres
      cases hopt : optList (path.map s.remap_frozenset) with
      | none =>
        rw [hopt] at hres
        exact absurd hres (by simp)
      | some gs =>
        rw [hopt] at hres
        have hgroups : groups = gs := by
          injection hres with h
          exact h.symm
        subst hgroups
        have hperm : (List.insertionSort bigger (models.map posFroz)).Perm
            (models.map posFroz) := List.perm_insertionSort _ _
        obtain ⟨⟨hpathmem, hpathpw⟩, hpathcard⟩ :=
          partition_roots_sound _ _ fuel _ (fun r hr => hr) path hsearch
        have hpathS : ∀ A ∈ path, A ∈ models.map posFroz :=
          fun A hA => hperm.mem_iff.mp (hpathmem A hA)
        have hsubset : poolOf path ⊆ poolOf (models.map posFroz) := by
          intro x hx
          rw [mem_poolOf] at hx ⊢
          obtain ⟨A, hA, hx⟩ := hx
          exact ⟨A, hpathS A hA, hx⟩
        have hpooleq : poolOf path = poolOf (models.map posFroz) := by
          apply Finset.eq_of_subset_of_card_le hsubset
          rw [hpathcard]
        have hmemgroups : ∀ g, g ∈ groups ↔ ∃ A ∈ path, s.remap_frozenset A = some g :=
          fun g => optList_map_mem _ _ _ hopt g
        have hallsome : ∀ A ∈ path, (s.remap_frozenset A).isSome :=
          (optList_map_isSome s.remap_frozenset path).mp (by rw [hopt]; rfl)
        refine ⟨?_, ?_, ?_⟩
        · refine optList_pairwise hopt hpathpw ?_
          intro A B gA gB hAB hgA hgB
          rw [Finset.disjoint_left]
          intro e heA heB
          obtain ⟨i, hiA, hfi⟩ := (remap_frozenset_mem hgA e).mp heA
          obtain ⟨j, hjB, hfj⟩ := (remap_frozenset_mem hgB e).mp heB
          have hij := hinj i j e hfi hfj
          subst hij
          exact (Finset.disjoint_left.mp hAB) hiA hjB
        · intro g hg
          obtain ⟨A, hA, hre⟩ := (hmemgroups g).mp hg
          obtain ⟨m, hm, hpm⟩ := List.mem_map.mp (hpathS A hA)
          refine ⟨m, hm, ?_⟩
          rw [← remap_frozenset_posFroz, hpm, hre]
        · intro e
          constructor
          · rintro ⟨g, hg, he⟩
            obtain ⟨A, hA, hre⟩ := (hmemgroups g).mp hg
            obtain ⟨i, hiA, hfi⟩ := (remap_frozenset_mem hre e).mp he
            have hiS : i ∈ poolOf (models.map posFroz) := by
              rw [← hpooleq, mem_poolOf]
              exact ⟨A, hA, hiA⟩
            rw [mem_poolOf] at hiS
            obtain ⟨B, hB, hiB⟩ := hiS
            obtain ⟨m, hm, hpm⟩ := List.mem_map.mp hB
            obtain ⟨g2, hg2⟩ := remap_solution_isSome (hmodels m hm)
            refine ⟨m, hm, g2, hg2, ?_⟩
            rw [remap_solution_mem hg2 e]
            have hip : i ∈ posFroz m := by
              rw [hpm]
              exact hiB
            rw [posFroz_mem] at hip
            obtain ⟨i0, hi0m, hi0pos, hi0eq⟩ := hip
            exact ⟨i0, hi0m, hi0pos, by rw [hi0eq]; exact hfi⟩
          · rintro ⟨m, hm, g2, hg2, he⟩
            rw [remap_solution_mem hg2 e] at he
            obtain ⟨i0, hi0m, hi0pos, hf⟩ := he
            have hiS : i0.toNat ∈ poolOf (models.map posFroz) := by
              rw [mem_poolOf]
              refine ⟨posFroz m, List.mem_map_of_mem _ hm, ?_⟩
              rw [posFroz_mem]
              exact ⟨i0, hi0m, hi0pos, rfl⟩
            rw [← hpooleq, mem_poolOf] at hiS
            obtain ⟨A, hA, hiA⟩ := hiS
            have hsome := hallsome A hA
            rw [Option.isSome_iff_exists] at hsome
            obtain ⟨gA, hgA⟩ := hsome
            refine ⟨gA, (hmemgroups gA).mpr ⟨A, hA, hgA⟩, ?_⟩
            rw [remap_frozenset_mem hgA e]
            exact ⟨i0.toNat, hiA, hf⟩

/-- Content of claim C8: with `max_group_size` filtering out every
candidate while the enumeration was nonempty, `partition_solutions` raises
the validation error; and when the depth-first search over all starting
candidates is exhausted without reaching the target pool, it raises the
Unsatisfiable error.  Both outcomes are errors: no partial list escapes. -/
def PartitionFailureSpec (s : AccessibleBSP E) (models : List (List Int))
    (max_group_size : Option Nat) (engine : SolveResult) (fuel : Nat) : Prop :=
  (models ≠ [] → candidate_solutions models max_group_size = [] →
    s.partition_solutions models max_group_size engine fuel
      = PartitionResult.err PyError.valueError)
  ∧ (2 ≤ (candidate_solutions models max_group_size).length →
      partition_roots (List.insertionSort bigger (candidate_solutions models max_group_size))
          (poolOf (candidate_solutions models max_group_size)).card fuel
          (List.insertionSort bigger (candidate_solutions models max_group_size))
        = DfsOutcome.exhausted →
      s.partition_solutions models max_group_size engine fuel
        = PartitionResult.err PyError.unsatisfiableConstraints)

/-- C8: `partition_solutions` raises `ValueError` when `max_group_size`
excludes every candidate despite a nonempty enumeration, and raises the
Unsatisfiable error when the pruned depth-first search over all starting
candidates is exhausted without full pool coverage; in both cases no
partial result is returned. -/
theorem partition_solutions_failure_modes
    (s : AccessibleBSP E) (models : List (List Int)) (max_group_size : Option Nat)
    (engine : SolveResult) (fuel : Nat) :
    PartitionFailureSpec s models max_group_size engine fuel := by
  constructor
  · intro hne hempty
    simp only [AccessibleBSP.partition_solutions]
    rw [hempty]
    have hm : models.isEmpty = false := by
      cases models with
      | nil => exact absurd rfl hne
      | cons a l => rfl
    simp [hm]
  · intro hlen2 hexh
    simp only [AccessibleBSP.partition_solutions]
    have hfalse : (candidate_solutions models max_group_size).isEmpty = false := by
      cases hc : candidate_solutions models max_group_size with
      | nil =>
        rw [hc] at hlen2
        simp at hlen2
      | cons a l => rfl
    rw [if_neg (by simp [hfalse])]
    rw [if_neg (by omega)]
    rw [hexh]

/-! ### Concrete witnesses -/

/-- Witness for C3 at the concrete elements `[0, 1]`. -/
theorem mutually_excludes_single_clause_semantics_witness :
    (([0, 1] : List Nat) ≠ [])
    ∧ MutuallyExcludesSpec (AccessibleBSP.new : AccessibleBSP Nat) [0, 1] :=
  ⟨by decide, mutually_excludes_single_clause_semantics _ _ (by decide)⟩

/-- Witness for C4 at the concrete elements `[3, 4, 5]` with `n = 2`. -/
theorem includes_any_combinations_semantics_witness :
    (([3, 4, 5] : List Nat).Nodup ∧ 1 ≤ 2 ∧ 2 ≤ ([3, 4, 5] : List Nat).length)
    ∧ IncludesAnySpec (AccessibleBSP.new : AccessibleBSP Nat) [3, 4, 5] 2 :=
  ⟨by decide,
    includes_any_combinations_semantics _ _ _ coherent_new (by decide) (by decide) (by decide)⟩

/-- Witness for C5 at element `0` with `on = [1, 2]` and `n = 1`. -/
theorem has_dependencies_semantics_witness :
    (([1, 2] : List Nat).Nodup
      ∧ 1 ≤ (some 1 : Option Nat).getD ([1, 2] : List Nat).length
      ∧ (some 1 : Option Nat).getD ([1, 2] : List Nat).length ≤ ([1, 2] : List Nat).length)
    ∧ HasDependenciesSpec (AccessibleBSP.new : AccessibleBSP Nat) 0 [1, 2] (some 1) :=
  ⟨by decide,
    has_dependencies_semantics _ _ _ _ coherent_new (by decide) (by decide) (by decide)⟩

/-- Witness for C6 at a concrete instance. -/
theorem solution_error_discrimination_witness :
    SolutionDiscriminationSpec (AccessibleBSP.new : AccessibleBSP Nat) :=
  solution_error_discrimination _

/-- Witness for C7 at the concrete elements `0`, `1`, `2`. -/
theorem to_id_from_id_registry_witness :
    ((0 : Nat) ≠ 1 ∧ (0 : Nat) ≠ 2 ∧ (1 : Nat) ≠ 2) ∧ RegistrySpec (0 : Nat) 1 2 :=
  ⟨by decide, to_id_from_id_registry 0 1 2 (by decide) (by decide) (by decide)⟩

/-- Witness for C1: two models over two registered elements partition into
the two singleton groups. -/
theorem partition_solutions_disjoint_cover_witness :
    (([[1, -2], [-1, 2]] : List (List Int)) ≠ []
      ∧ (((AccessibleBSP.new : AccessibleBSP Nat).to_id 10).1.to_id 20).1.partition_solutions
          [[1, -2], [-1, 2]] none SolveResult.unsat 5
        = PartitionResult.ok [{10}, {20}])
    ∧ PartitionCoverSpec (((AccessibleBSP.new : AccessibleBSP Nat).to_id 10).1.to_id 20).1
        [[1, -2], [-1, 2]] [{10}, {20}] :=
  ⟨⟨by decide, by decide⟩,
    partition_solutions_disjoint_cover _ _ SolveResult.unsat 5 _
      (coherent_to_id (coherent_to_id coherent_new 10) 20)
      (by decide) (by decide) (by decide)⟩

/-- Witness for C8: three pairwise-overlapping two-element solutions; a
`max_group_size` of 1 excludes them all (validation error), and with all
of them admitted, no disjoint cover of the three-variable pool exists
(unsatisfiable after exhausting the search). -/
theorem partition_solutions_failure_modes_witness :
    ((AccessibleBSP.new : AccessibleBSP Nat).partition_solutions
        [[1, 2, -3], [-1, 2, 3], [1, -2, 3]] (some 1) SolveResult.unsat 10
      = PartitionResult.err PyError.valueError)
    ∧ ((AccessibleBSP.new : AccessibleBSP Nat).partition_solutions
        [[1, 2, -3], [-1, 2, 3], [1, -2, 3]] (some 3) SolveResult.unsat 10
      = PartitionResult.err PyError.unsatisfiableConstraints) :=
  ⟨(partition_solutions_failure_modes _ _ (some 1) SolveResult.unsat 10).1
      (by decide) (by decide),
    (partition_solutions_failure_modes _ _ (some 3) SolveResult.unsat 10).2
      (by decide) (by decide)⟩

/-- Witness for C10: after `mutually_excludes` of an empty collection, the
clause list is the single empty clause and the solution query of an engine
that has proven unsatisfiability raises the Unsatisfiable error. -/
theorem empty_elements_unsatisfiable_witness :
    ((AccessibleBSP.new : AccessibleBSP Nat).mutually_excludes []).clauses = [[]]
    ∧ ((AccessibleBSP.new : AccessibleBSP Nat).mutually_excludes []).solution SolveResult.unsat
      = Except.error PyError.unsatisfiableConstraints := by
  have h := empty_elements_unsatisfiable (AccessibleBSP.new : AccessibleBSP Nat)
  refine ⟨h.1, ?_⟩
  exact h.2.2.2 _ SolveResult.unsat (by decide)
    (fun m hm => SolveResult.noConfusion hm) (by decide)
